import Mathlib

/-!
Verification of the GraphQL code-generator's schema-and-operation
transformation engine (TypeScript template package).

The repository ships the TypeScript template configuration
(`src/packages/templates/typescript/src/config.ts`) and its test suite
(`src/packages/templates/typescript/tests/typescript.spec.ts`); the core
transformation logic lives in the external `graphql-codegen-core` and
`graphql-codegen-compiler` packages, which are not part of this source
tree.  The definitions below therefore embed that core as described by the
specification, checked against the concrete outputs pinned by the test
suite.
-/

namespace GqlCodegen

/-- Modelled from the spec (§3, §4.1): a schema-declared type reference,
the closed tagged variant over Named / List / NonNull wrappers.  The
parsing front end producing these values is external to the repository. -/
inductive GType where
  | named (name : String) : GType
  | list (inner : GType) : GType
  | nonNull (inner : GType) : GType
deriving Repr, DecidableEq

/-- Modelled from the spec (§3): the normalized type descriptor
(baseName, nullability, list information).  `isNullable` is the
nullability of the outermost position (the list itself when `isArray`);
`itemNullable` is meaningful only when `isArray` is true. -/
structure TypeDescriptor where
  baseName : String
  isNullable : Bool
  isArray : Bool
  itemNullable : Bool
deriving Repr, DecidableEq

/-- Modelled from the spec (§4.1): the TypeDescriptor Resolver, missing
from this source tree (it lives in `graphql-codegen-core`).  Peels the
wrappers: a bare named type is nullable; `NonNull(X)` marks the
immediately-enclosing position non-nullable and recurses into `X`;
`List(X)` marks "is a list" and takes the item nullability from `X`. -/
def resolveType : GType → TypeDescriptor
  | .named n => ⟨n, true, false, true⟩
  | .nonNull t => { resolveType t with isNullable := false }
  | .list t =>
    let inner := resolveType t
    ⟨inner.baseName, true, true, inner.isNullable⟩

/-- From `src/packages/templates/typescript/src/config.ts`: the primitive
scalar mapping shipped with the TypeScript template. -/
def primitives : List (String × String) :=
  [("String", "string"), ("Int", "number"), ("Float", "number"),
   ("Boolean", "boolean"), ("ID", "string")]

/-- Modelled from the spec (§4.2): scalars absent from the primitive
mapping table default to the scalar's own (opaque alias) name. -/
def mapPrimitive (ps : List (String × String)) (n : String) : String :=
  ((ps.find? (fun p => p.1 == n)).map (fun p => p.2)).getD n

/-- Modelled from the spec (§6): the recognized configuration options of
the generator that the embedded core consumes. -/
structure GenConfig where
  immutableTypes : Bool := false
  avoidOptionals : Bool := false
  enumsAsTypes : Bool := false
deriving Repr, DecidableEq

/-- Modelled from the spec (§6, §8) and the `getOptionals` helper
referenced by `config.ts`: a field carries the optional marker exactly
when it is nullable and `avoidOptionals` is off. -/
def fieldOptionalMarker (cfg : GenConfig) (d : TypeDescriptor) : Bool :=
  d.isNullable && !cfg.avoidOptionals

/-- Modelled from the spec (§8) and the `getType` helper referenced by
`config.ts`: the rendered type without the outermost null union.  Arrays
render as `(item | null)[]` / `item[]`, or `ReadonlyArray<...>` under
`immutableTypes`. -/
def renderBare (immutable : Bool) (base : String) (d : TypeDescriptor) : String :=
  if d.isArray then
    if immutable then
      "ReadonlyArray<" ++ (if d.itemNullable then base ++ " | null" else base) ++ ">"
    else
      (if d.itemNullable then "(" ++ base ++ " | null)" else base) ++ "[]"
  else base

/-- Modelled from the spec (§8): the rendered type; a nullable outermost
position appends the `| null` union member. -/
def renderTypeString (immutable : Bool) (base : String) (d : TypeDescriptor) : String :=
  if d.isNullable then renderBare immutable base d ++ " | null"
  else renderBare immutable base d

/-- Modelled from the spec (§8) and the template's field rendering: a
schema field line `name?: type;`, with `readonly` under `immutableTypes`
and the optional marker governed by `fieldOptionalMarker`. -/
def renderFieldNamed (cfg : GenConfig) (name base : String) (d : TypeDescriptor) : String :=
  (if fieldOptionalMarker cfg d then
     (if cfg.immutableTypes then "readonly " ++ name else name) ++ "?"
   else
     (if cfg.immutableTypes then "readonly " ++ name else name))
  ++ ": " ++ renderTypeString cfg.immutableTypes base d ++ ";"

/-- Claim C1: for a field of type `String` under the four list/nullability
wrappings, the resolved descriptors and rendered types (here under
`immutableTypes`, as in the pinned test) are exactly the four independent
combinations: `[String]` optional with nullable array of nullable items,
`[String]!` required with non-null array of nullable items, `[String!]!`
required with non-null array of non-null items, `[String!]` optional with
nullable array of non-null items. -/
theorem C1_four_list_nullability_combinations :
    resolveType (.list (.named "String")) = ⟨"String", true, true, true⟩
    ∧ resolveType (.nonNull (.list (.named "String"))) = ⟨"String", false, true, true⟩
    ∧ resolveType (.nonNull (.list (.nonNull (.named "String")))) = ⟨"String", false, true, false⟩
    ∧ resolveType (.list (.nonNull (.named "String"))) = ⟨"String", true, true, false⟩
    ∧ fieldOptionalMarker {} (resolveType (.list (.named "String"))) = true
    ∧ fieldOptionalMarker {} (resolveType (.nonNull (.list (.named "String")))) = false
    ∧ fieldOptionalMarker {} (resolveType (.nonNull (.list (.nonNull (.named "String"))))) = false
    ∧ fieldOptionalMarker {} (resolveType (.list (.nonNull (.named "String")))) = true
    ∧ renderFieldNamed { immutableTypes := true } "arrayTest1"
        (mapPrimitive primitives "String") (resolveType (.list (.named "String")))
      = "readonly arrayTest1?: ReadonlyArray<string | null> | null;"
    ∧ renderFieldNamed { immutableTypes := true } "arrayTest2"
        (mapPrimitive primitives "String") (resolveType (.nonNull (.list (.named "String"))))
      = "readonly arrayTest2: ReadonlyArray<string | null>;"
    ∧ renderFieldNamed { immutableTypes := true } "arrayTest3"
        (mapPrimitive primitives "String") (resolveType (.nonNull (.list (.nonNull (.named "String")))))
      = "readonly arrayTest3: ReadonlyArray<string>;"
    ∧ renderFieldNamed { immutableTypes := true } "arrayTest4"
        (mapPrimitive primitives "String") (resolveType (.list (.nonNull (.named "String"))))
      = "readonly arrayTest4?: ReadonlyArray<string> | null;" := by
  refine ⟨rfl, rfl, rfl, rfl, rfl, rfl, rfl, rfl, ?_, ?_, ?_, ?_⟩ <;> rfl

/-- Claim C7: under `avoidOptionals`, a nullable field loses the optional
marker while its rendered type keeps the `| null` union member. -/
theorem C7_avoidOptionals_keeps_null_union (name base : String) (d : TypeDescriptor)
    (h : d.isNullable = true) :
    fieldOptionalMarker { avoidOptionals := true } d = false
    ∧ renderFieldNamed { avoidOptionals := true } name base d
        = name ++ ": " ++ (renderBare false base d ++ " | null") ++ ";" := by
  constructor
  · simp [fieldOptionalMarker]
  · simp [renderFieldNamed, fieldOptionalMarker, renderTypeString, h]

/-- Witness for C7 at the test's `fieldTest: String` field: the optional
marker disappears, the rendered line keeps the null union. -/
theorem C7_witness :
    fieldOptionalMarker { avoidOptionals := true } (resolveType (.named "String")) = false
    ∧ renderFieldNamed { avoidOptionals := true } "fieldTest" "string"
        (resolveType (.named "String"))
      = "fieldTest" ++ ": "
        ++ (renderBare false "string" (resolveType (.named "String")) ++ " | null") ++ ";" :=
  C7_avoidOptionals_keeps_null_union "fieldTest" "string" (resolveType (.named "String")) rfl

/-- Modelled from the spec (§4.2): an enum of the schema model, name plus
value list. -/
structure EnumDef where
  name : String
  values : List String
deriving Repr, DecidableEq

/-- Modelled from the spec (§4.2): the two rendering modes for an enum:
a first-class enumerated type (value/literal pairs) or a union of the
value string literals. -/
inductive EnumEmission where
  | enumeration (name : String) (pairs : List (String × String)) : EnumEmission
  | literalUnion (name : String) (literals : List String) : EnumEmission
deriving Repr, DecidableEq

/-- Reports whether an emission is the first-class enumerated form. -/
def EnumEmission.isEnumeration : EnumEmission → Bool
  | .enumeration _ _ => true
  | .literalUnion _ _ => false

/-- Value/literal pairs of an enumerated emission (empty for a union). -/
def enumerationPairs : EnumEmission → List (String × String)
  | .enumeration _ ps => ps
  | .literalUnion _ _ => []

/-- Wraps a string in double quotes, the string-literal rendering. -/
def quote (s : String) : String := "\"" ++ s ++ "\""

/-- Modelled from the spec (§4.2, §8): rendering of an enum emission; the
union mode renders `export type N = "V1" | "V2";`. -/
def renderEnumEmission : EnumEmission → String
  | .literalUnion n vs => "export type " ++ n ++ " = " ++ String.intercalate " | " (vs.map quote) ++ ";"
  | .enumeration n ps => "export enum " ++ n ++ ": " ++ String.intercalate ", " (ps.map fun p => p.1 ++ " = " ++ quote p.2)

/-- Modelled from the spec (§4.2): enum emission; by default the
first-class enumerated type with each value equal to its own name, under
`enumsAsTypes` the union of the value literals. -/
def emitEnum (cfg : GenConfig) (e : EnumDef) : EnumEmission :=
  if cfg.enumsAsTypes then .literalUnion e.name e.values
  else .enumeration e.name (e.values.map fun v => (v, v))

/-- Claim C6: by default every enum is emitted as a first-class
enumerated type whose value/literal pairs make each value equal its own
name; under `enumsAsTypes` the same enum is emitted as the union of its
value literals, not as an enumerated type. -/
theorem C6_enum_emission_modes (e : EnumDef) :
    (emitEnum {} e).isEnumeration = true
    ∧ enumerationPairs (emitEnum {} e) = e.values.map (fun v => (v, v))
    ∧ emitEnum { enumsAsTypes := true } e = .literalUnion e.name e.values
    ∧ (emitEnum { enumsAsTypes := true } e).isEnumeration = false
    ∧ renderEnumEmission (emitEnum { enumsAsTypes := true } e)
        = "export type " ++ e.name ++ " = "
          ++ String.intercalate " | " (e.values.map quote) ++ ";" := by
  refine ⟨rfl, rfl, rfl, rfl, rfl⟩

/-- Modelled from the spec (§3): an argument declared by a schema field. -/
structure ArgDef where
  name : String
  type : GType
deriving Repr, DecidableEq

/-- Modelled from the spec (§3): a schema field with its raw type and its
ordered (possibly empty) argument list. -/
structure SchemaField where
  name : String
  type : GType
  args : List ArgDef
deriving Repr, DecidableEq

/-- Modelled from the spec (§3): a declared object type of the schema. -/
structure SchemaType where
  name : String
  fields : List SchemaField
deriving Repr, DecidableEq

/-- A schema is the list of its declared types. -/
abbrev Schema := List SchemaType

/-- Modelled from the spec (§4.3): the naming rule for synthesized
argument entities, `Capitalize(fieldName) + Capitalize(typeName) + "Args"`. -/
def argsTypeName (fieldName typeName : String) : String :=
  fieldName.capitalize ++ typeName.capitalize ++ "Args"

/-- One property of a synthesized arguments entity. -/
structure ArgsProp where
  name : String
  descriptor : TypeDescriptor
deriving Repr, DecidableEq

/-- A synthesized top-level arguments entity. -/
structure ArgsEntity where
  name : String
  props : List ArgsProp
deriving Repr, DecidableEq

/-- Modelled from the spec (§4.3): the Argument-Type Synthesizer for one
field; a field with no arguments synthesizes nothing, otherwise a named
entity with one property per argument carrying its resolved descriptor. -/
def synthesizeFieldArgs (typeName : String) (f : SchemaField) : Option ArgsEntity :=
  if f.args.isEmpty then none
  else some ⟨argsTypeName f.name typeName, f.args.map fun a => ⟨a.name, resolveType a.type⟩⟩

/-- All argument entities synthesized from one declared type. -/
def argsEntitiesOfType (t : SchemaType) : List ArgsEntity :=
  t.fields.filterMap (synthesizeFieldArgs t.name)

/-- All argument entities of the schema. -/
def allArgsEntities (s : Schema) : List ArgsEntity :=
  (s.map argsEntitiesOfType).flatten

/-- Modelled from the spec (§4.3, §6): the flat list of top-level entity
names; synthesized argument entities are siblings of the declared types. -/
def topLevelEntityNames (s : Schema) : List String :=
  s.map SchemaType.name ++ (allArgsEntities s).map ArgsEntity.name

/-- Claim C5: every field declaring at least one argument synthesizes a
top-level sibling entity named `Capitalize(fieldName) +
Capitalize(typeName) + "Args"` with one property per argument carrying
its resolved descriptor. -/
theorem C5_argument_entity_synthesis (s : Schema) (t : SchemaType) (f : SchemaField)
    (ht : t ∈ s) (hf : f ∈ t.fields) (hargs : f.args ≠ []) :
    synthesizeFieldArgs t.name f
      = some ⟨argsTypeName f.name t.name, f.args.map fun a => ⟨a.name, resolveType a.type⟩⟩
    ∧ (⟨argsTypeName f.name t.name, f.args.map fun a => ⟨a.name, resolveType a.type⟩⟩ : ArgsEntity)
        ∈ allArgsEntities s
    ∧ argsTypeName f.name t.name ∈ topLevelEntityNames s := by
  have hsynth : synthesizeFieldArgs t.name f
      = some ⟨argsTypeName f.name t.name, f.args.map fun a => ⟨a.name, resolveType a.type⟩⟩ := by
    simp [synthesizeFieldArgs, hargs]
  have hmem : (⟨argsTypeName f.name t.name, f.args.map fun a => ⟨a.name, resolveType a.type⟩⟩ :
      ArgsEntity) ∈ allArgsEntities s := by
    apply List.mem_flatten.2
    refine ⟨argsEntitiesOfType t, List.mem_map_of_mem _ ht, ?_⟩
    exact List.mem_filterMap.2 ⟨f, hf, hsynth⟩
  refine ⟨hsynth, hmem, ?_⟩
  apply List.mem_append_right
  exact List.mem_map_of_mem _ hmem

/-- Witness for C5: the test schema `Query { fieldTest(arg1: String): String! }`
synthesizes `FieldTestQueryArgs` with a single nullable `arg1` property. -/
theorem C5_witness :
    synthesizeFieldArgs "Query" ⟨"fieldTest", .nonNull (.named "String"), [⟨"arg1", .named "String"⟩]⟩
      = some ⟨"FieldTestQueryArgs", [⟨"arg1", ⟨"String", true, false, true⟩⟩]⟩
    ∧ (⟨"FieldTestQueryArgs", [⟨"arg1", ⟨"String", true, false, true⟩⟩]⟩ : ArgsEntity)
        ∈ allArgsEntities [⟨"Query", [⟨"fieldTest", .nonNull (.named "String"), [⟨"arg1", .named "String"⟩]⟩]⟩]
    ∧ "FieldTestQueryArgs"
        ∈ topLevelEntityNames [⟨"Query", [⟨"fieldTest", .nonNull (.named "String"), [⟨"arg1", .named "String"⟩]⟩]⟩] :=
  C5_argument_entity_synthesis
    [⟨"Query", [⟨"fieldTest", .nonNull (.named "String"), [⟨"arg1", .named "String"⟩]⟩]⟩]
    ⟨"Query", [⟨"fieldTest", .nonNull (.named "String"), [⟨"arg1", .named "String"⟩]⟩]⟩
    ⟨"fieldTest", .nonNull (.named "String"), [⟨"arg1", .named "String"⟩]⟩
    (by decide) (by decide) (by decide)

/-- Modelled from the spec (§3): a directive usage attached to a schema
node, a name plus ordered argument name/literal-value pairs. -/
structure DirectiveUse where
  name : String
  args : List (String × String)
deriving Repr, DecidableEq

/-- Modelled from the spec (§4.5): a directive-bearing schema node: a
declared type, a field, or the schema node itself. -/
inductive SchemaNode where
  | typeNode (typeName : String) (directives : List DirectiveUse) : SchemaNode
  | fieldNode (typeName fieldName : String) (directives : List DirectiveUse) : SchemaNode
  | schemaNode (directives : List DirectiveUse) : SchemaNode
deriving Repr, DecidableEq

/-- The directives attached to a schema node. -/
def SchemaNode.directives : SchemaNode → List DirectiveUse
  | .typeNode _ ds => ds
  | .fieldNode _ _ ds => ds
  | .schemaNode ds => ds

/-- Modelled from the spec (§4.5): the generic directive-conditional
predicate (`ifDirective`), missing from this source tree; given any node
and any directive name it reports whether the directive is attached and,
when so, yields the directive's argument values as the local scope. -/
def ifDirective (node : SchemaNode) (dirName : String) : Option (List (String × String)) :=
  (node.directives.find? (fun d => d.name == dirName)).map (fun d => d.args)

/-- Claim C8: for every schema node and every directive name, the
predicate reports attachment exactly when the directive is present, and
when present it exposes that directive's argument values; nothing in the
definition depends on a particular directive name. -/
theorem C8_ifDirective_generic (node : SchemaNode) (dirName : String) :
    ((ifDirective node dirName).isSome = true ↔ ∃ d ∈ node.directives, d.name = dirName)
    ∧ ∀ pre d post, node.directives = pre ++ d :: post → d.name = dirName →
        (∀ d2 ∈ pre, d2.name ≠ dirName) →
        ifDirective node dirName = some d.args := by
  constructor
  · simp [ifDirective, List.find?_isSome]
  · intro pre d post hsplit hname hpre
    have hfind : (node.directives.find? (fun d => d.name == dirName)) = some d := by
      rw [hsplit, List.find?_append]
      have hnone : pre.find? (fun d => d.name == dirName) = none := by
        rw [List.find?_eq_none]
        intro x hx
        simpa using hpre x hx
      rw [hnone]
      simp [hname]
    simp [ifDirective, hfind]

/-- Witness for C8 at the test's `schema @app(test: "123")` node: the
predicate yields the attached directive's argument scope. -/
theorem C8_witness :
    ifDirective (.schemaNode [⟨"app", [("test", "123")]⟩]) "app" = some [("test", "123")] :=
  (C8_ifDirective_generic (.schemaNode [⟨"app", [("test", "123")]⟩]) "app").2
    [] ⟨"app", [("test", "123")]⟩ [] rfl rfl (by simp)

/-- Modelled from the spec (§4.5): the synthetic name of the n-th
anonymous operation of a batch. -/
def anonymousName (n : Nat) : String := "AnonymousQuery_" ++ toString n

/-- Modelled from the spec (§4.5, §9): the Naming Assigner's walk over a
document batch; the anonymous-operation counter is threaded explicitly,
scoped to the one batch, and incremented only at anonymous operations. -/
def assignOperationNamesAux (counter : Nat) : List (Option String) → List String
  | [] => []
  | some n :: rest => n :: assignOperationNamesAux counter rest
  | none :: rest => anonymousName counter :: assignOperationNamesAux (counter + 1) rest

/-- Modelled from the spec (§4.5): operation names for a batch; the
counter starts at 1 for every batch. -/
def assignOperationNames (ops : List (Option String)) : List String :=
  assignOperationNamesAux 1 ops

/-- Number of anonymous operations strictly before position `i`. -/
def anonCountBefore (ops : List (Option String)) (i : Nat) : Nat :=
  ((ops.take i).filter Option.isNone).length

lemma assignOperationNamesAux_anon (l : List (Option String)) :
    ∀ (c i : Nat), l[i]? = some none →
      (assignOperationNamesAux c l)[i]?
        = some (anonymousName (c + ((l.take i).filter Option.isNone).length)) := by
  induction l with
  | nil => intro c i h; simp at h
  | cons o rest ih =>
    intro c i h
    cases o with
    | none =>
      cases i with
      | zero => simp [assignOperationNamesAux]
      | succ i =>
        simp only [List.getElem?_cons_succ] at h
        have hrec := ih (c + 1) i h
        have harith : c + (((none :: rest : List (Option String)).take (i + 1)).filter
              Option.isNone).length
            = (c + 1) + ((rest.take i).filter Option.isNone).length := by
          simp only [List.take_succ_cons, List.filter_cons, Option.isNone_none,
            if_true, List.length_cons]
          omega
        rw [harith]
        simpa only [assignOperationNamesAux, List.getElem?_cons_succ] using hrec
    | some s =>
      cases i with
      | zero => simp at h
      | succ i =>
        simp only [List.getElem?_cons_succ] at h
        have hrec := ih c i h
        simp [assignOperationNamesAux, hrec, List.take_succ_cons, List.filter_cons]

/-- Claim C4: in every document batch, each anonymous operation at
position `i` is named `AnonymousQuery_<n>` with `<n>` one plus the count
of anonymous operations strictly before it — a 1-based counter in
document order over anonymous operations only, so the first anonymous
operation is numbered 1 however many named operations surround it; the
name list is a pure function of the single batch, so no counter state
crosses batches. -/
theorem C4_anonymous_operation_naming (ops : List (Option String)) (i : Nat)
    (h : ops[i]? = some none) :
    (assignOperationNames ops)[i]? = some (anonymousName (1 + anonCountBefore ops i))
    ∧ (anonCountBefore ops i = 0 →
        (assignOperationNames ops)[i]? = some (anonymousName 1)) := by
  have hmain := assignOperationNamesAux_anon ops 1 i h
  refine ⟨hmain, fun h0 => ?_⟩
  have h0' : ((ops.take i).filter Option.isNone).length = 0 := h0
  rw [h0'] at hmain
  simpa [assignOperationNames] using hmain

/-- Witness for C4 at the spec's example batch `[named "X", anonymous,
anonymous]`: the two anonymous operations are `AnonymousQuery_1` and
`AnonymousQuery_2` in document order. -/
theorem C4_witness :
    (assignOperationNames [some "X", none, none])[1]? = some (anonymousName 1)
    ∧ (assignOperationNames [some "X", none, none])[2]? = some (anonymousName 2)
    ∧ assignOperationNames [some "X", none, none]
        = ["X", "AnonymousQuery_1", "AnonymousQuery_2"] :=
  ⟨(C4_anonymous_operation_naming [some "X", none, none] 1 rfl).1,
   (C4_anonymous_operation_naming [some "X", none, none] 2 rfl).1,
   rfl⟩

/-- Modelled from the spec (§3): one selection of a selection set — a
field (leaf when its nested selection list is empty), a fragment spread,
or an inline fragment with its type condition. -/
inductive Selection where
  | field (name : String) (selections : List Selection) : Selection
  | fragmentSpread (name : String) : Selection
  | inlineFragment (onType : String) (selections : List Selection) : Selection
deriving Repr

/-- One data property of a result shape: name, optional marker, rendered
type. -/
structure ShapeProp where
  name : String
  optional : Bool
  tsType : String
deriving Repr, DecidableEq

/-- Modelled from the spec (§3): a ResultShapeNode — a named shape with
its `__typename` discriminator (value type plus optional marker), its
direct data properties, the fragment shapes it references by name (via
intersection), its sibling inline-fragment shapes (via union), and the
nested shapes built for its fields. -/
inductive Shape where
  | mk (name : String) (typenameType : String) (typenameOptional : Bool)
       (props : List ShapeProp) (fragmentRefs : List String)
       (inlineShapes : List Shape) (childShapes : List Shape) : Shape
deriving Repr

/-- The name of a shape. -/
def Shape.name : Shape → String
  | .mk n _ _ _ _ _ _ => n

/-- The value type of the shape's `__typename` discriminator. -/
def Shape.typenameType : Shape → String
  | .mk _ t _ _ _ _ _ => t

/-- Whether the shape's `__typename` discriminator is optional. -/
def Shape.typenameOptional : Shape → Bool
  | .mk _ _ o _ _ _ _ => o

/-- The direct data properties of a shape. -/
def Shape.props : Shape → List ShapeProp
  | .mk _ _ _ ps _ _ _ => ps

/-- The fragment names the shape references by intersection. -/
def Shape.fragmentRefs : Shape → List String
  | .mk _ _ _ _ rs _ _ => rs

/-- The sibling inline-fragment shapes the shape is intersected with the
union of. -/
def Shape.inlineShapes : Shape → List Shape
  | .mk _ _ _ _ _ is _ => is

/-- The nested shapes synthesized for the shape's fields. -/
def Shape.childShapes : Shape → List Shape
  | .mk _ _ _ _ _ _ cs => cs

/-- Renames a shape, leaving everything else unchanged. -/
def Shape.withName (n : String) : Shape → Shape
  | .mk _ t o ps rs is cs => .mk n t o ps rs is cs

/-- Accumulated output of walking one selection set: direct properties,
referenced fragment names, inline-fragment shapes collected at this
position (named later by the enclosing shape), and nested child shapes. -/
structure WalkAcc where
  props : List ShapeProp
  fragmentRefs : List String
  inlineParts : List Shape
  childShapes : List Shape
deriving Repr

/-- Concatenates two walk accumulators componentwise. -/
def WalkAcc.app (a b : WalkAcc) : WalkAcc :=
  ⟨a.props ++ b.props, a.fragmentRefs ++ b.fragmentRefs,
   a.inlineParts ++ b.inlineParts, a.childShapes ++ b.childShapes⟩

/-- A string of `n` underscores. -/
def underscores : Nat → String
  | 0 => ""
  | n + 1 => "_" ++ underscores n

/-- Modelled from the spec (§4.5): the name of the i-th (0-based) inline
fragment at one selection position: the parent name suffixed with
`InlineFragment`, with one extra leading underscore per subsequent
inline fragment. -/
def inlineFragName (parent : String) (i : Nat) : String :=
  underscores i ++ parent ++ "InlineFragment"

/-- Looks up the raw type of a field of a declared schema type. -/
def lookupFieldType (s : Schema) (typeName fieldName : String) : Option GType :=
  match s.find? (fun t => t.name == typeName) with
  | none => none
  | some t => (t.fields.find? (fun f => f.name == fieldName)).map (fun f => f.type)

/-- Modelled from the spec (§4.5): closes one selection position into a
shape: the collected inline-fragment shapes are named by position with
the underscore scheme; the `__typename` discriminator (always optional)
is the quoted concrete type name, or — when inline fragments are present
— the union of each inline-fragment shape's own `__typename` literal. -/
def finalizeShape (shapeName typeName : String) (acc : WalkAcc) : Shape :=
  let named := acc.inlineParts.enum.map fun p => Shape.withName (inlineFragName typeName p.1) p.2
  Shape.mk shapeName
    (if named.isEmpty then quote typeName
     else String.intercalate " | "
       (named.map fun s => s.name ++ "[" ++ quote "__typename" ++ "]"))
    true acc.props acc.fragmentRefs named acc.childShapes

mutual

/-- Modelled from the spec (§4.5): the contribution of one selection. A
leaf field becomes a property typed by its resolved descriptor (with the
primitive mapping applied); a field with a nested selection set becomes a
property typed by a fresh shape named from the field name capitalized,
plus that recursively built child shape; a fragment spread contributes
only the fragment's name; an inline fragment contributes one collected
sibling shape, walked on its type condition. A field the schema does not
declare contributes nothing (the real transform aborts; see spec §7). -/
def selAcc (schema : Schema) (typeName : String) : Selection → WalkAcc
  | .field fname sub =>
    match lookupFieldType schema typeName fname with
    | none => ⟨[], [], [], []⟩
    | some gt =>
      let d := resolveType gt
      match sub with
      | [] => ⟨[⟨fname, d.isNullable, renderTypeString false (mapPrimitive primitives d.baseName) d⟩], [], [], []⟩
      | s1 :: ss =>
        ⟨[⟨fname, d.isNullable, renderTypeString false fname.capitalize d⟩], [], [],
         [finalizeShape fname.capitalize d.baseName (walkSels schema d.baseName (s1 :: ss))]⟩
  | .fragmentSpread fname => ⟨[], [fname], [], []⟩
  | .inlineFragment onType sub =>
    ⟨[], [], [finalizeShape "" onType (walkSels schema onType sub)], []⟩
termination_by sel => sizeOf sel

/-- Modelled from the spec (§4.5): the selection-set walk, the
concatenation of the contributions of the selections in order. -/
def walkSels (schema : Schema) (typeName : String) : List Selection → WalkAcc
  | [] => ⟨[], [], [], []⟩
  | sel :: rest => WalkAcc.app (selAcc schema typeName sel) (walkSels schema typeName rest)
termination_by sels => sizeOf sels

end

/-- Whether a selection is an inline fragment. -/
def isInlineSel : Selection → Bool
  | .inlineFragment _ _ => true
  | _ => false

/-- Whether a selection is a fragment spread. -/
def isSpreadSel : Selection → Bool
  | .fragmentSpread _ => true
  | _ => false

/-- Number of inline fragments at one selection position. -/
def inlineCount (sels : List Selection) : Nat := sels.countP isInlineSel

/-- Number of fragment spreads at one selection position. -/
def spreadCount (sels : List Selection) : Nat := sels.countP isSpreadSel

/-- Modelled from the spec (§4.5) and the pinned test output: what a
shape is intersected with — every referenced fragment's canonical
`Fragment` shape, and, when inline fragments are present, the union of
the sibling inline-fragment shapes. -/
def shapeSuffix (s : Shape) : String :=
  String.join (s.fragmentRefs.map fun r => " & " ++ r ++ ".Fragment")
  ++ (if s.inlineShapes.isEmpty then ""
      else " & (" ++ String.intercalate " | " (s.inlineShapes.map Shape.name) ++ ")")

/-- Modelled from the spec (§3): a fragment definition — name, the type
it is defined on, and its selection set. -/
structure FragmentDef where
  name : String
  onType : String
  selections : List Selection
deriving Repr

/-- A fragment's dedicated namespace: its name and its canonical
resolved shape. -/
structure FragmentNamespace where
  nsName : String
  shape : Shape
deriving Repr

/-- Modelled from the spec (§4.4): the Fragment Resolver; builds the
fragment's shape with the Operation Transformer's walk, rooted at the
fragment's declared type, under a namespace named after the fragment and
exported as that namespace's canonical `Fragment` shape. -/
def resolveFragment (schema : Schema) (f : FragmentDef) : FragmentNamespace :=
  ⟨f.name, finalizeShape "Fragment" f.onType (walkSels schema f.onType f.selections)⟩

/-- Looks up a resolved fragment namespace by fragment name. -/
def lookupFragment (l : List FragmentNamespace) (n : String) : Option FragmentNamespace :=
  l.find? (fun fr => fr.nsName == n)

/-- Modelled from the spec (§3): the operation kind. -/
inductive OperationKind where
  | query : OperationKind
  | mutation : OperationKind
  | subscription : OperationKind
deriving Repr, DecidableEq

/-- Modelled from the spec (§4.5): the schema root type consumed for an
operation kind. -/
def rootTypeName : OperationKind → String
  | .query => "Query"
  | .mutation => "Mutation"
  | .subscription => "Subscription"

/-- Modelled from the spec (§3): an operation document root — optional
name, kind, and root selection set. -/
structure OperationDef where
  name : Option String
  kind : OperationKind
  selections : List Selection
deriving Repr

/-- One operation's namespace: its assigned name and its root shape. -/
structure OperationNamespace where
  nsName : String
  rootShape : Shape
deriving Repr

/-- Modelled from the spec (§4.5): transforms one operation under its
assigned namespace name; the root shape is named after the root type. -/
def transformOperation (schema : Schema) (assignedName : String) (op : OperationDef) :
    OperationNamespace :=
  ⟨assignedName,
   finalizeShape (rootTypeName op.kind) (rootTypeName op.kind)
     (walkSels schema (rootTypeName op.kind) op.selections)⟩

/-- The output of one document-batch transform: one namespace per
operation plus the once-resolved fragment namespaces. -/
structure Batch where
  operations : List OperationNamespace
  fragments : List FragmentNamespace
deriving Repr

/-- Modelled from the spec (§4.4, §4.5): transforms a whole document
batch: operation names assigned in document order, each operation
transformed against the schema, and every fragment resolved exactly once
at the batch level. -/
def transformBatch (schema : Schema) (ops : List OperationDef) (frags : List FragmentDef) :
    Batch :=
  ⟨((assignOperationNames (ops.map OperationDef.name)).zip ops).map
     (fun p => transformOperation schema p.1 p.2),
   frags.map (resolveFragment schema)⟩

lemma Shape.withName_name (n : String) (s : Shape) : (s.withName n).name = n := by
  cases s; rfl

lemma WalkAcc.empty_app (a : WalkAcc) : WalkAcc.app ⟨[], [], [], []⟩ a = a := by
  cases a; simp [WalkAcc.app]

lemma WalkAcc.app_assoc (a b c : WalkAcc) :
    WalkAcc.app (WalkAcc.app a b) c = WalkAcc.app a (WalkAcc.app b c) := by
  cases a; cases b; cases c; simp [WalkAcc.app]

lemma walkSels_append (schema : Schema) (t : String) (l₁ l₂ : List Selection) :
    walkSels schema t (l₁ ++ l₂) = WalkAcc.app (walkSels schema t l₁) (walkSels schema t l₂) := by
  induction l₁ with
  | nil =>
    simp only [List.nil_append, walkSels]
    rw [WalkAcc.empty_app]
  | cons s rest ih =>
    simp only [List.cons_append, walkSels, ih, WalkAcc.app_assoc]

lemma selAcc_inlineParts_length (schema : Schema) (t : String) (sel : Selection) :
    (selAcc schema t sel).inlineParts.length = if isInlineSel sel then 1 else 0 := by
  cases sel with
  | field fname sub =>
    cases h : lookupFieldType schema t fname with
    | none => simp [selAcc, h, isInlineSel]
    | some gt => cases sub <;> simp [selAcc, h, isInlineSel]
  | fragmentSpread fname => simp [selAcc, isInlineSel]
  | inlineFragment onType sub => simp [selAcc, isInlineSel]

/-- The spread name of a fragment-spread selection (empty otherwise). -/
def selSpreadName : Selection → String
  | .fragmentSpread n => n
  | _ => ""

lemma selAcc_fragmentRefs (schema : Schema) (t : String) (sel : Selection) :
    (selAcc schema t sel).fragmentRefs = if isSpreadSel sel then [selSpreadName sel] else [] := by
  cases sel with
  | field fname sub =>
    cases h : lookupFieldType schema t fname with
    | none => simp [selAcc, h, isSpreadSel]
    | some gt => cases sub <;> simp [selAcc, h, isSpreadSel]
  | fragmentSpread fname => simp [selAcc, isSpreadSel, selSpreadName]
  | inlineFragment onType sub => simp [selAcc, isSpreadSel]

lemma walkSels_inlineParts_length (schema : Schema) (t : String) (sels : List Selection) :
    (walkSels schema t sels).inlineParts.length = inlineCount sels := by
  induction sels with
  | nil => simp [walkSels, inlineCount]
  | cons s rest ih =>
    simp only [walkSels, WalkAcc.app, inlineCount, List.countP_cons]
    simp only [inlineCount] at ih
    rw [List.length_append, selAcc_inlineParts_length, ih]
    cases h : isInlineSel s
    · simp [h]
    · simp [h]; omega

lemma walkSels_fragmentRefs_length (schema : Schema) (t : String) (sels : List Selection) :
    (walkSels schema t sels).fragmentRefs.length = spreadCount sels := by
  induction sels with
  | nil => simp [walkSels, spreadCount]
  | cons s rest ih =>
    simp only [walkSels, WalkAcc.app, spreadCount, List.countP_cons]
    simp only [spreadCount] at ih
    rw [List.length_append, selAcc_fragmentRefs, ih]
    cases h : isSpreadSel s
    · simp [h]
    · simp [h]; omega

lemma finalize_name (sname t : String) (acc : WalkAcc) :
    (finalizeShape sname t acc).name = sname := by
  simp [finalizeShape, Shape.name]

lemma finalize_typenameOptional (sname t : String) (acc : WalkAcc) :
    (finalizeShape sname t acc).typenameOptional = true := by
  simp [finalizeShape, Shape.typenameOptional]

lemma finalize_props (sname t : String) (acc : WalkAcc) :
    (finalizeShape sname t acc).props = acc.props := by
  simp [finalizeShape, Shape.props]

lemma finalize_fragmentRefs (sname t : String) (acc : WalkAcc) :
    (finalizeShape sname t acc).fragmentRefs = acc.fragmentRefs := by
  simp [finalizeShape, Shape.fragmentRefs]

lemma finalize_childShapes (sname t : String) (acc : WalkAcc) :
    (finalizeShape sname t acc).childShapes = acc.childShapes := by
  simp [finalizeShape, Shape.childShapes]

lemma enum_map_fst_comp {α β : Type} (l : List α) (f : Nat → β) :
    l.enum.map (fun p => f p.1) = (List.range l.length).map f := by
  have h : (fun p : Nat × α => f p.1) = f ∘ Prod.fst := rfl
  rw [h, ← List.map_map, List.enum_map_fst]

lemma finalize_inline_names (sname t : String) (acc : WalkAcc) :
    (finalizeShape sname t acc).inlineShapes.map Shape.name
      = (List.range acc.inlineParts.length).map (inlineFragName t) := by
  simp only [finalizeShape, Shape.inlineShapes]
  rw [List.map_map]
  have h : (Shape.name ∘ fun p : Nat × Shape => Shape.withName (inlineFragName t p.1) p.2)
      = fun p : Nat × Shape => inlineFragName t p.1 := by
    funext p
    simp [Shape.withName_name]
  rw [h, enum_map_fst_comp]

lemma finalize_inline_length (sname t : String) (acc : WalkAcc) :
    (finalizeShape sname t acc).inlineShapes.length = acc.inlineParts.length := by
  have h := congrArg List.length (finalize_inline_names sname t acc)
  simpa using h

lemma finalize_typenameType_of_empty (sname t : String) (acc : WalkAcc)
    (h : acc.inlineParts = []) :
    (finalizeShape sname t acc).typenameType = quote t := by
  simp [finalizeShape, Shape.typenameType, h]

lemma finalize_typenameType_of_nonempty (sname t : String) (acc : WalkAcc)
    (h : acc.inlineParts ≠ []) :
    (finalizeShape sname t acc).typenameType
      = String.intercalate " | "
          (((finalizeShape sname t acc).inlineShapes.map Shape.name).map
            (fun n => n ++ "[" ++ quote "__typename" ++ "]")) := by
  simp only [finalizeShape, Shape.typenameType, Shape.inlineShapes]
  have hne : (acc.inlineParts.enum.map fun p => Shape.withName (inlineFragName t p.1) p.2).isEmpty
      = false := by
    simp [List.isEmpty_iff, h]
  rw [hne]
  simp only [Bool.false_eq_true, if_false, List.map_map]
  rfl

/-- Claim C2: at a selection position holding two or more inline
fragments on parent type `P`, the synthesized sibling shapes are named
`PInlineFragment`, `_PInlineFragment`, `__PInlineFragment`, … (one extra
leading underscore per subsequent inline fragment), the enclosing
shape's `__typename` is the union of each inline-fragment shape's own
`__typename` literal, and the enclosing shape is intersected with the
union of all the inline-fragment shapes. -/
theorem C2_inline_fragment_naming_and_union (schema : Schema) (P sname : String)
    (sels : List Selection) (h2 : 2 ≤ inlineCount sels) (hs : spreadCount sels = 0) :
    (finalizeShape sname P (walkSels schema P sels)).inlineShapes.map Shape.name
      = (List.range (inlineCount sels)).map (inlineFragName P)
    ∧ (finalizeShape sname P (walkSels schema P sels)).typenameType
      = String.intercalate " | "
          (((List.range (inlineCount sels)).map (inlineFragName P)).map
            (fun n => n ++ "[" ++ quote "__typename" ++ "]"))
    ∧ shapeSuffix (finalizeShape sname P (walkSels schema P sels))
      = " & (" ++ String.intercalate " | "
          ((finalizeShape sname P (walkSels schema P sels)).inlineShapes.map Shape.name)
          ++ ")" := by
  have hlen := walkSels_inlineParts_length schema P sels
  have hne : (walkSels schema P sels).inlineParts ≠ [] := by
    intro hnil
    rw [hnil] at hlen
    simp at hlen
    omega
  refine ⟨?_, ?_, ?_⟩
  · rw [finalize_inline_names, hlen]
  · rw [finalize_typenameType_of_nonempty _ _ _ hne, finalize_inline_names, hlen]
  · have hrefs : (walkSels schema P sels).fragmentRefs = [] := by
      have hl := walkSels_fragmentRefs_length schema P sels
      rw [hs] at hl
      exact List.eq_nil_of_length_eq_zero hl
    have hinlne : (finalizeShape sname P (walkSels schema P sels)).inlineShapes ≠ [] := by
      intro hnil
      have hle := finalize_inline_length sname P (walkSels schema P sels)
      rw [hnil] at hle
      exact hne (List.eq_nil_of_length_eq_zero hle.symm)
    have hinl : (finalizeShape sname P (walkSels schema P sels)).inlineShapes.isEmpty = false := by
      simp [List.isEmpty_iff, hinlne]
    simp only [shapeSuffix, finalize_fragmentRefs, hrefs, hinl, List.map_nil,
      Bool.false_eq_true, if_false]
    rw [show String.join [] = "" from rfl]
    simp

/-- The subset of the test suite's `schema.json` schema exercised by the
operation tests: `Query.feed: [Entry]`, `Entry` with `id`,
`commentCount`, `repository`, `Repository` with `full_name`, `html_url`,
`owner`, and `User` with `avatar_url`. -/
def testSchema : Schema :=
  [⟨"Query", [⟨"feed", .list (.named "Entry"), []⟩]⟩,
   ⟨"Entry", [⟨"id", .nonNull (.named "Int"), []⟩,
              ⟨"commentCount", .nonNull (.named "Int"), []⟩,
              ⟨"repository", .nonNull (.named "Repository"), []⟩]⟩,
   ⟨"Repository", [⟨"full_name", .nonNull (.named "String"), []⟩,
                   ⟨"html_url", .nonNull (.named "String"), []⟩,
                   ⟨"owner", .named "User", []⟩]⟩,
   ⟨"User", [⟨"avatar_url", .nonNull (.named "String"), []⟩]⟩]

/-- The two-inline-fragment selection position of the pinned test, on
type `Repository`. -/
def twoInlineSels : List Selection :=
  [.field "html_url" [],
   .inlineFragment "Repository" [.field "full_name" []],
   .inlineFragment "Repository" [.field "owner" [.field "avatar_url" []]]]

/-- Witness for C2 at the pinned test's two inline fragments on
`Repository`: the siblings are `RepositoryInlineFragment` and
`_RepositoryInlineFragment`, the `__typename` is their union, and the
shape is intersected with their union. -/
theorem C2_witness :
    (finalizeShape "Repository" "Repository" (walkSels testSchema "Repository" twoInlineSels)).inlineShapes.map Shape.name
      = (List.range (inlineCount twoInlineSels)).map (inlineFragName "Repository")
    ∧ (finalizeShape "Repository" "Repository" (walkSels testSchema "Repository" twoInlineSels)).typenameType
      = String.intercalate " | "
          (((List.range (inlineCount twoInlineSels)).map (inlineFragName "Repository")).map
            (fun n => n ++ "[" ++ quote "__typename" ++ "]"))
    ∧ shapeSuffix (finalizeShape "Repository" "Repository" (walkSels testSchema "Repository" twoInlineSels))
      = " & (" ++ String.intercalate " | "
          ((finalizeShape "Repository" "Repository" (walkSels testSchema "Repository" twoInlineSels)).inlineShapes.map Shape.name)
          ++ ")" :=
  C2_inline_fragment_naming_and_union testSchema "Repository" "Repository" twoInlineSels
    (by decide) (by decide)

/-- Claim C9: a field selection carrying a nested selection set becomes a
property typed by a freshly named shape named from the field's own name
capitalized, built recursively by the same walk on the field's resolved
base type, and that nested shape carries an (optional) `__typename`
discriminator whose value type is the quoted concrete object-type name —
or, when inline fragments make the position polymorphic, the union of
the candidate shapes' own `__typename` literals. -/
theorem C9_nested_field_fresh_shape (schema : Schema) (typeName fname : String)
    (s1 : Selection) (ss : List Selection) (gt : GType)
    (hf : lookupFieldType schema typeName fname = some gt) :
    selAcc schema typeName (.field fname (s1 :: ss))
      = ⟨[⟨fname, (resolveType gt).isNullable,
           renderTypeString false fname.capitalize (resolveType gt)⟩], [], [],
         [finalizeShape fname.capitalize (resolveType gt).baseName
            (walkSels schema (resolveType gt).baseName (s1 :: ss))]⟩
    ∧ (finalizeShape fname.capitalize (resolveType gt).baseName
         (walkSels schema (resolveType gt).baseName (s1 :: ss))).name = fname.capitalize
    ∧ (finalizeShape fname.capitalize (resolveType gt).baseName
         (walkSels schema (resolveType gt).baseName (s1 :: ss))).typenameOptional = true
    ∧ (inlineCount (s1 :: ss) = 0 →
        (finalizeShape fname.capitalize (resolveType gt).baseName
           (walkSels schema (resolveType gt).baseName (s1 :: ss))).typenameType
          = quote (resolveType gt).baseName)
    ∧ (inlineCount (s1 :: ss) ≠ 0 →
        (finalizeShape fname.capitalize (resolveType gt).baseName
           (walkSels schema (resolveType gt).baseName (s1 :: ss))).typenameType
          = String.intercalate " | "
              (((finalizeShape fname.capitalize (resolveType gt).baseName
                  (walkSels schema (resolveType gt).baseName (s1 :: ss))).inlineShapes.map
                    Shape.name).map
                (fun n => n ++ "[" ++ quote "__typename" ++ "]"))) := by
  refine ⟨?_, finalize_name _ _ _, finalize_typenameOptional _ _ _, ?_, ?_⟩
  · simp [selAcc, hf]
  · intro h0
    apply finalize_typenameType_of_empty
    have hl := walkSels_inlineParts_length schema (resolveType gt).baseName (s1 :: ss)
    rw [h0] at hl
    exact List.eq_nil_of_length_eq_zero hl
  · intro hne0
    apply finalize_typenameType_of_nonempty
    intro hnil
    have hl := walkSels_inlineParts_length schema (resolveType gt).baseName (s1 :: ss)
    rw [hnil] at hl
    exact hne0 hl.symm

/-- Witness for C9 at the pinned test's `owner { avatar_url }` field on
`Repository`: the property is typed by the fresh `Owner` shape, built on
the resolved base type `User`, with `__typename` the literal `"User"`. -/
theorem C9_witness :
    selAcc testSchema "Repository" (.field "owner" [.field "avatar_url" []])
      = ⟨[⟨"owner", true, "Owner | null"⟩], [], [],
         [finalizeShape "Owner" "User" (walkSels testSchema "User" [.field "avatar_url" []])]⟩
    ∧ (finalizeShape "Owner" "User"
         (walkSels testSchema "User" [.field "avatar_url" []])).name = "Owner"
    ∧ (finalizeShape "Owner" "User"
         (walkSels testSchema "User" [.field "avatar_url" []])).typenameOptional = true
    ∧ (finalizeShape "Owner" "User"
         (walkSels testSchema "User" [.field "avatar_url" []])).typenameType = quote "User" :=
  have h := C9_nested_field_fresh_shape testSchema "Repository" "owner"
    (.field "avatar_url" []) [] (.named "User") rfl
  ⟨h.1, h.2.1, h.2.2.1, h.2.2.2.1 rfl⟩

lemma lookupFragment_map_resolveFragment (schema : Schema) (frags : List FragmentDef)
    (f : FragmentDef) (hf : f ∈ frags) (hnodup : (frags.map FragmentDef.name).Nodup) :
    lookupFragment (frags.map (resolveFragment schema)) f.name
      = some (resolveFragment schema f) := by
  induction frags with
  | nil => cases hf
  | cons g rest ih =>
    simp only [List.map_cons, List.nodup_cons] at hnodup
    rcases List.mem_cons.1 hf with hfg | hfr
    · subst hfg
      simp [lookupFragment, List.find?, resolveFragment]
    · have hne : g.name ≠ f.name := by
        intro he
        exact hnodup.1 (he ▸ List.mem_map_of_mem FragmentDef.name hfr)
      simp only [lookupFragment, List.map_cons]
      rw [List.find?_cons_of_neg]
      · exact ih hfr hnodup.2
      · simp [resolveFragment, hne]

/-- Claim C3: a fragment spread contributes no property and no nested
shape of its own — the enclosing position keeps exactly its directly
selected fields and gains only a by-name reference to the fragment; the
fragment itself is resolved into a dedicated namespace named after the
fragment, exporting the canonical `Fragment` shape; and in a transformed
batch every spread of a fragment name resolves, through the batch's
single fragment table, to the one shape produced by resolving that
fragment's definition once. -/
theorem C3_fragment_spread_reference (schema : Schema) (t : String)
    (pre post : List Selection) (n : String) (ops : List OperationDef)
    (frags : List FragmentDef) (f : FragmentDef)
    (hf : f ∈ frags) (hn : f.name = n)
    (hnodup : (frags.map FragmentDef.name).Nodup) :
    (walkSels schema t (pre ++ Selection.fragmentSpread n :: post)).props
      = (walkSels schema t (pre ++ post)).props
    ∧ (walkSels schema t (pre ++ Selection.fragmentSpread n :: post)).childShapes
      = (walkSels schema t (pre ++ post)).childShapes
    ∧ (walkSels schema t (pre ++ Selection.fragmentSpread n :: post)).fragmentRefs
      = (walkSels schema t pre).fragmentRefs ++ n :: (walkSels schema t post).fragmentRefs
    ∧ (resolveFragment schema f).nsName = f.name
    ∧ (resolveFragment schema f).shape.name = "Fragment"
    ∧ (transformBatch schema ops frags).fragments = frags.map (resolveFragment schema)
    ∧ lookupFragment ((transformBatch schema ops frags).fragments) n
        = some (resolveFragment schema f) := by
  have hmid : walkSels schema t (Selection.fragmentSpread n :: post)
      = WalkAcc.app ⟨[], [n], [], []⟩ (walkSels schema t post) := by
    simp [walkSels, selAcc]
  have hsplit : walkSels schema t (pre ++ Selection.fragmentSpread n :: post)
      = WalkAcc.app (walkSels schema t pre)
          (WalkAcc.app ⟨[], [n], [], []⟩ (walkSels schema t post)) := by
    rw [walkSels_append, hmid]
  have hsplit2 : walkSels schema t (pre ++ post)
      = WalkAcc.app (walkSels schema t pre) (walkSels schema t post) :=
    walkSels_append schema t pre post
  refine ⟨?_, ?_, ?_, rfl, finalize_name _ _ _, rfl, ?_⟩
  · rw [hsplit, hsplit2]
    simp [WalkAcc.app]
  · rw [hsplit, hsplit2]
    simp [WalkAcc.app]
  · rw [hsplit]
    simp [WalkAcc.app]
  · have h := lookupFragment_map_resolveFragment schema frags f hf hnodup
    rw [hn] at h
    exact h

/-- The pinned test's `RepoFields` fragment on `Repository`. -/
def repoFieldsFrag : FragmentDef :=
  ⟨"RepoFields", "Repository", [.field "html_url" [], .field "owner" [.field "avatar_url" []]]⟩

/-- Witness for C3 at the pinned test's spread of `RepoFields` after the
direct field `full_name`: the props are those of the direct field alone,
the reference list carries exactly the fragment name, and the batch's
fragment table resolves `RepoFields` to its single resolved namespace. -/
theorem C3_witness :
    (walkSels testSchema "Repository"
        ([.field "full_name" []] ++ Selection.fragmentSpread "RepoFields" :: [])).props
      = (walkSels testSchema "Repository" ([.field "full_name" []] ++ [])).props
    ∧ (walkSels testSchema "Repository"
        ([.field "full_name" []] ++ Selection.fragmentSpread "RepoFields" :: [])).fragmentRefs
      = (walkSels testSchema "Repository" [.field "full_name" []]).fragmentRefs
        ++ "RepoFields" :: (walkSels testSchema "Repository" []).fragmentRefs
    ∧ (resolveFragment testSchema repoFieldsFrag).nsName = "RepoFields"
    ∧ (resolveFragment testSchema repoFieldsFrag).shape.name = "Fragment"
    ∧ lookupFragment ((transformBatch testSchema [] [repoFieldsFrag]).fragments) "RepoFields"
        = some (resolveFragment testSchema repoFieldsFrag) :=
  have h := C3_fragment_spread_reference testSchema "Repository"
    [.field "full_name" []] [] "RepoFields" [] [repoFieldsFrag] repoFieldsFrag
    (List.mem_cons_self repoFieldsFrag []) rfl (by simp)
  ⟨h.1, h.2.2.1, h.2.2.2.1, h.2.2.2.2.1, h.2.2.2.2.2.2⟩

/-- Whether every shape of a result tree — the shape itself, its inline
fragment shapes, and its nested child shapes, recursively — has an
optional `__typename` discriminator. -/
def Shape.allTypenamesOptional : Shape → Bool
  | .mk _ _ topt _ _ inl ch =>
    topt && (inl.attach.all fun s => s.1.allTypenamesOptional)
         && (ch.attach.all fun s => s.1.allTypenamesOptional)
termination_by s => sizeOf s
decreasing_by
  · have h1 := List.sizeOf_lt_of_mem s.2
    simp only [Shape.mk.sizeOf_spec]
    omega
  · have h1 := List.sizeOf_lt_of_mem s.2
    simp only [Shape.mk.sizeOf_spec]
    omega

lemma Shape.withName_allTypenamesOptional (n : String) (s : Shape) :
    (s.withName n).allTypenamesOptional = s.allTypenamesOptional := by
  cases s
  simp only [Shape.withName, Shape.allTypenamesOptional]

lemma allTypenamesOptional_mk (n t : String) (ps : List ShapeProp) (rs : List String)
    (inl ch : List Shape)
    (hinl : ∀ s ∈ inl, Shape.allTypenamesOptional s = true)
    (hch : ∀ s ∈ ch, Shape.allTypenamesOptional s = true) :
    Shape.allTypenamesOptional (.mk n t true ps rs inl ch) = true := by
  simp only [Shape.allTypenamesOptional, Bool.true_and, Bool.and_eq_true, List.all_eq_true]
  constructor
  · rintro ⟨s, hs⟩ _
    exact hinl s hs
  · rintro ⟨s, hs⟩ _
    exact hch s hs

lemma finalize_allTypenamesOptional (sname t : String) (acc : WalkAcc)
    (hinl : ∀ s ∈ acc.inlineParts, Shape.allTypenamesOptional s = true)
    (hch : ∀ s ∈ acc.childShapes, Shape.allTypenamesOptional s = true) :
    (finalizeShape sname t acc).allTypenamesOptional = true := by
  simp only [finalizeShape]
  apply allTypenamesOptional_mk
  · intro s hs
    rcases List.mem_map.1 hs with ⟨p, hp, rfl⟩
    have h2 : p.2 ∈ acc.inlineParts := by
      rw [List.mem_enum_iff_getElem?] at hp
      exact List.getElem?_mem hp
    rw [Shape.withName_allTypenamesOptional]
    exact hinl p.2 h2
  · exact hch

lemma walk_shapes_allTypenamesOptional (N : Nat) :
    ∀ (sels : List Selection), sizeOf sels ≤ N → ∀ (schema : Schema) (t : String),
      (∀ s ∈ (walkSels schema t sels).inlineParts, Shape.allTypenamesOptional s = true)
      ∧ (∀ s ∈ (walkSels schema t sels).childShapes, Shape.allTypenamesOptional s = true) := by
  induction N with
  | zero =>
    intro sels hsz
    exfalso
    have hpos : 0 < sizeOf sels := by
      cases sels <;> simp_arith
    omega
  | succ N ih =>
    intro sels hsz schema t
    cases sels with
    | nil => simp [walkSels]
    | cons sel rest =>
      have hcons : sizeOf (sel :: rest) = 1 + sizeOf sel + sizeOf rest := by
        simp_arith
      have hselpos : 0 < sizeOf sel := by
        cases sel <;> simp_arith
      have hrest : sizeOf rest ≤ N := by omega
      have ihrest := ih rest hrest schema t
      have hsel : ∀ s, s ∈ (selAcc schema t sel).inlineParts
          ∨ s ∈ (selAcc schema t sel).childShapes → Shape.allTypenamesOptional s = true := by
        intro s hs
        cases sel with
        | field fname sub =>
          cases hl : lookupFieldType schema t fname with
          | none =>
            simp [selAcc, hl] at hs
          | some gt =>
            cases sub with
            | nil => simp [selAcc, hl] at hs
            | cons s1 ss =>
              simp only [selAcc, hl, List.mem_singleton, List.not_mem_nil, false_or] at hs
              subst hs
              have hsub : sizeOf (s1 :: ss) ≤ N := by
                have : sizeOf (Selection.field fname (s1 :: ss))
                    = 1 + sizeOf fname + sizeOf (s1 :: ss) := by simp_arith
                omega
              have hwalk := ih (s1 :: ss) hsub schema (resolveType gt).baseName
              exact finalize_allTypenamesOptional _ _ _ hwalk.1 hwalk.2
        | fragmentSpread fname =>
          simp [selAcc] at hs
        | inlineFragment onType sub =>
          simp only [selAcc, List.mem_singleton, List.not_mem_nil, or_false] at hs
          subst hs
          have hsub : sizeOf sub ≤ N := by
            have : sizeOf (Selection.inlineFragment onType sub)
                = 1 + sizeOf onType + sizeOf sub := by simp_arith
            omega
          have hwalk := ih sub hsub schema onType
          exact finalize_allTypenamesOptional _ _ _ hwalk.1 hwalk.2
      constructor
      · intro s hs
        simp only [walkSels, WalkAcc.app] at hs
        rcases List.mem_append.1 hs with hs | hs
        · exact hsel s (Or.inl hs)
        · exact ihrest.1 s hs
      · intro s hs
        simp only [walkSels, WalkAcc.app] at hs
        rcases List.mem_append.1 hs with hs | hs
        · exact hsel s (Or.inr hs)
        · exact ihrest.2 s hs

/-- Claim C10: every result shape the transformer emits — the closed
shape of any walked selection set, every fragment namespace's canonical
shape, and every operation's root shape, including all their nested and
inline-fragment shapes recursively — carries its `__typename`
discriminator as an optional field, never as a required one. -/
theorem C10_typename_always_optional (schema : Schema) (t sname : String)
    (sels : List Selection) (f : FragmentDef) (assignedName : String) (op : OperationDef) :
    (finalizeShape sname t (walkSels schema t sels)).typenameOptional = true
    ∧ (finalizeShape sname t (walkSels schema t sels)).allTypenamesOptional = true
    ∧ (resolveFragment schema f).shape.allTypenamesOptional = true
    ∧ (transformOperation schema assignedName op).rootShape.allTypenamesOptional = true := by
  have hmain : ∀ (t2 sname2 : String) (sels2 : List Selection),
      (finalizeShape sname2 t2 (walkSels schema t2 sels2)).allTypenamesOptional = true := by
    intro t2 sname2 sels2
    have h := walk_shapes_allTypenamesOptional (sizeOf sels2) sels2 le_rfl schema t2
    exact finalize_allTypenamesOptional _ _ _ h.1 h.2
  exact ⟨finalize_typenameOptional _ _ _, hmain t sname sels,
    hmain f.onType "Fragment" f.selections,
    hmain (rootTypeName op.kind) (rootTypeName op.kind) op.selections⟩

end GqlCodegen
